import Mathlib

set_option maxHeartbeats 1000000

namespace GuitarCaged

/-- The five CAGED shape labels (the string literal union type in cagedShapes.ts). -/
inductive Shape where
  | C
  | A
  | G
  | E
  | D
deriving DecidableEq, Repr

/-- Chord quality accepted by the shape templates (the string literal union in cagedShapes.ts). -/
inductive Quality where
  | major
  | minor
deriving DecidableEq, Repr

/-- The quality as the string the source passes to getChordNotes. -/
def Quality.str : Quality → String
  | .major => "major"
  | .minor => "minor"

/-- Chromatic scale used throughout the source (cagedShapes.ts getNoteOnString,
cagedSystem.ts noteNames): C C# D D# E F F# G G# A A# B, written as the two
halves of the octave. -/
def chromatic : List String :=
  ["C", "C#", "D", "D#", "E", "F"] ++ ["F#", "G", "G#", "A", "A#", "B"]

/-- Flat-to-sharp normalization table (cagedShapes.ts normalizeNoteName,
cagedSystem.ts flatToSharp). -/
def normalizeNoteName (note : String) : String :=
  if note = "Db" then "C#"
  else if note = "Eb" then "D#"
  else if note = "Gb" then "F#"
  else if note = "Ab" then "G#"
  else if note = "Bb" then "A#"
  else note

/-- Standard tuning note names, low to high (cagedShapes.ts stringTuning,
musicTheory.ts STANDARD_TUNING). -/
def stringTuning : List String := ["E", "A", "D", "G", "B", "E"]

/-- Index of a note name in the chromatic scale; `none` models
`Array.prototype.indexOf` returning -1. -/
def noteIndexOf (n : String) : Option Nat :=
  chromatic.findIdx? (fun x => x == n)

/-- cagedShapes.ts getNoteOnString: the fret of `note` on string `stringIndex`
within the first octave; `none` models the thrown error for an unrecognized
note name. -/
def getNoteOnString (note : String) (stringIndex : Nat) : Option Int :=
  let openNote := stringTuning.getD stringIndex ""
  match noteIndexOf openNote, noteIndexOf (normalizeNoteName note) with
  | some openNoteIndex, some targetNoteIndex =>
      some (((targetNoteIndex : Int) - (openNoteIndex : Int) + 12) % 12)
  | _, _ => none

/-- One CAGED shape template (cagedShapes.ts CAGEDShapeTemplate). -/
structure CAGEDShapeTemplate where
  frets : List Int
  rootString : Nat
  rootFret : Int
  fingers : List Nat
deriving DecidableEq, Repr

/-- The template table CAGED_SHAPES from cagedShapes.ts. -/
def CAGED_SHAPES : Shape → Quality → CAGEDShapeTemplate
  | .E, .major => ⟨[0, 2, 2, 1, 0, 0], 0, 0, [0, 2, 3, 1, 0, 0]⟩
  | .E, .minor => ⟨[0, 2, 2, 0, 0, 0], 0, 0, [0, 2, 3, 0, 0, 0]⟩
  | .A, .major => ⟨[-1, 0, 2, 2, 2, 0], 1, 0, [0, 0, 2, 3, 4, 0]⟩
  | .A, .minor => ⟨[-1, 0, 2, 2, 1, 0], 1, 0, [0, 0, 2, 3, 1, 0]⟩
  | .D, .major => ⟨[-1, -1, 0, 2, 3, 2], 2, 0, [0, 0, 0, 1, 3, 2]⟩
  | .D, .minor => ⟨[-1, -1, 0, 2, 3, 1], 2, 0, [0, 0, 0, 2, 3, 1]⟩
  | .G, .major => ⟨[3, 2, 0, 0, 0, 3], 0, 3, [3, 2, 0, 0, 0, 4]⟩
  | .G, .minor => ⟨[3, 1, 0, 0, 3, 3], 0, 3, [3, 1, 0, 0, 4, 4]⟩
  | .C, .major => ⟨[-1, 3, 2, 0, 1, 0], 1, 3, [0, 3, 2, 0, 1, 0]⟩
  | .C, .minor => ⟨[-1, 3, 1, 0, 1, 3], 1, 3, [0, 4, 2, 0, 1, 3]⟩

/-- The chord-tone oracle interface: (root, quality) to the pitch classes
(Note.chroma values) of the chord's theoretical notes. -/
abbrev Oracle := String → String → List Nat

/-- Pitch classes of the open strings in standard tuning E A D G B E. -/
def tuningChromas : List Nat := [4, 9, 2, 7, 11, 4]

/-- Modelled from the spec: fretPitchClass of §4.1 — the pitch class sounded by
`fret` on string `stringIndex` is (tuning pitch class + fret) mod 12. The
source computes this through the external Tonal.js note arithmetic
(musicTheory.ts fretsToNotes followed by Note.chroma). -/
def fretChroma (stringIndex : Nat) (fret : Int) : Int :=
  ((tuningChromas.getD stringIndex 0 : Int) + fret) % 12

/-- Minimum of a list of integers, with an explicit value for the empty list
(JavaScript Math.min over a spread argument list). -/
def listMinD (l : List Int) (dflt : Int) : Int :=
  match l with
  | [] => dflt
  | a :: rest => rest.foldl min a

/-- Maximum of a list of integers, with an explicit value for the empty list
(JavaScript Math.max over a spread argument list). -/
def listMaxD (l : List Int) (dflt : Int) : Int :=
  match l with
  | [] => dflt
  | a :: rest => rest.foldl max a

/-- JavaScript Array.prototype.map with the element index as second callback
argument. -/
def mapWithIndex (f : Nat → α → β) : Nat → List α → List β
  | _, [] => []
  | i, a :: as => f i a :: mapWithIndex f (i + 1) as

/-- One string of the validation pass inside cagedShapes.ts transposeShape:
keep the fret when the pitch class it sounds is among the chord's theoretical
note chromas, otherwise force the string to muted. -/
def validateFret (theoreticalNotes : List Nat) (stringIndex : Nat) (fret : Int) : Int :=
  if fret = -1 then -1
  else if fret < 0 then -1
  else
    let noteChroma := fretChroma stringIndex fret
    if theoreticalNotes.any (fun t => (t : Int) == noteChroma) then fret
    else -1

/-- cagedShapes.ts transposeShape (the exported variant with Tonal.js
validation). The chord-tone oracle getChordNotes is passed in as `oracle`;
`none` models the exception thrown for an unrecognized root note. -/
def transposeShape (oracle : Oracle) (rootNote : String) (shapeType : Shape)
    (quality : Quality) (validate : Bool) : Option (List Int) :=
  let template := CAGED_SHAPES shapeType quality
  match getNoteOnString rootNote template.rootString with
  | none => none
  | some targetRootFret =>
    let offset := targetRootFret - template.rootFret
    let transposed := template.frets.map (fun fret => if fret = -1 then -1 else fret + offset)
    if validate then
      let theoreticalNotes := oracle rootNote quality.str
      if theoreticalNotes.isEmpty then some transposed
      else some (mapWithIndex (validateFret theoreticalNotes) 0 transposed)
    else some transposed

/-- Modelled from the spec: the external chord-tone oracle. musicTheory.ts
getChordNotes delegates to the Tonal.js library, which is not part of this
repository; spec §3 and §6 define its contract — a quality tag maps to
interval semitones from the root (major: root, major third, perfect fifth;
minor: root, minor third, perfect fifth; the empty quality string also denotes
major), and an empty answer signals an unknown chord. Answers are pitch
classes. -/
def chordTones (root quality : String) : List Nat :=
  match noteIndexOf (normalizeNoteName root) with
  | none => []
  | some r =>
    if quality = "major" ∨ quality = "" then [r % 12, (r + 4) % 12, (r + 7) % 12]
    else if quality = "minor" ∨ quality = "m" then [r % 12, (r + 3) % 12, (r + 7) % 12]
    else []

/-- A chord position as supplied by the external chords-db voicing library
(chordDatabase.ts ChordPosition). -/
structure ChordPosition where
  frets : List Int
  fingers : List Nat
  barres : List Int
  baseFret : Int
  midi : List Nat
deriving DecidableEq, Repr

/-- chordDatabase.ts toAbsoluteFrets, split out over the two fields it reads. -/
def toAbs (frets : List Int) (baseFret : Int) : List Int :=
  if baseFret ≤ 1 then frets
  else frets.map (fun fret =>
    if fret = -1 then -1
    else if fret = 0 then 0
    else baseFret + fret - 1)

/-- chordDatabase.ts toAbsoluteFrets: relative frets of a position to absolute
fret positions. -/
def toAbsoluteFrets (position : ChordPosition) : List Int :=
  toAbs position.frets position.baseFret

/-- musicTheory.ts fretsToNotes at the pitch-class level: the pitch classes of
the non-muted strings, in string order. -/
def fretsToChromas (frets : List Int) : List Int :=
  (frets.enum.filterMap (fun p => if p.2 = -1 then none else some (fretChroma p.1 p.2)))

/-- musicTheory.ts validateChordVoicing: true when every expected chord note is
sounded on at least one string (chromatic comparison). -/
def validateChordVoicing (frets : List Int) (expectedNotes : List Nat) : Bool :=
  if expectedNotes.isEmpty then false
  else
    let playedNotes := fretsToChromas frets
    expectedNotes.all (fun e => playedNotes.any (fun p => p == (e : Int)))

/-- The normalization to absolute frets at the top of cagedSystemEnhanced.ts
determineCAGEDShape. -/
def normalizeToAbsolute (frets : List Int) (baseFret : Int) : List Int :=
  if 1 < baseFret then
    frets.map (fun f => if f = -1 then -1 else if f = 0 then 0 else baseFret + f - 1)
  else frets

/-- cagedSystemEnhanced.ts determineCAGEDShape: classifies a fret pattern by
the CAGED shape it structurally represents (ordered rule evaluation). -/
def determineCAGEDShape (frets : List Int) (baseFret : Int) : Shape :=
  let absoluteFrets := normalizeToAbsolute frets baseFret
  let playedStrings := absoluteFrets.enum.filter (fun p => 0 ≤ p.2)
  if playedStrings.isEmpty then .E
  else
    let lowestString := (playedStrings.head?.map Prod.fst).getD 0
    let highestString := (playedStrings.getLast?.map Prod.fst).getD 0
    let hasOpenStrings := absoluteFrets.any (fun f => f = 0)
    let stringCount := playedStrings.length
    if absoluteFrets.getD 0 0 = -1 ∧ absoluteFrets.getD 1 0 = -1 ∧ 0 ≤ absoluteFrets.getD 2 0 then
      .D
    else if lowestString = 0 ∧ 4 ≤ stringCount then
      if stringCount = 6 ∧ hasOpenStrings ∧ 0 < absoluteFrets.getD 5 0 then .G else .E
    else if lowestString = 1 then
      if absoluteFrets.getD 0 0 = -1 ∧ hasOpenStrings ∧
          absoluteFrets.getD 2 0 < absoluteFrets.getD 1 0 then .C
      else .A
    else if 5 ≤ stringCount ∧ lowestString = 0 ∧ highestString = 5 then .G
    else if absoluteFrets.getD 0 0 = -1 ∧ 0 < absoluteFrets.getD 1 0 then
      if hasOpenStrings then .C else .A
    else if lowestString = 0 then .E
    else if lowestString = 1 then .A
    else if lowestString = 2 then .D
    else .E

/-- Difficulty classification (cagedSystemEnhanced.ts calculateDifficulty). -/
inductive Difficulty where
  | beginner
  | intermediate
  | advanced
deriving DecidableEq, Repr

/-- cagedSystemEnhanced.ts calculateDifficulty. -/
def calculateDifficulty (position : ChordPosition) (baseFret : Int) : Difficulty :=
  let hasBarres := ¬ position.barres.isEmpty
  let hasOpenStrings := position.frets.any (fun f => f = 0)
  if 12 < baseFret ∨ 1 < position.barres.length then .advanced
  else if hasOpenStrings ∧ ¬ hasBarres then .beginner
  else .intermediate

/-- First-occurrence deduplication, as a JavaScript Map keyed by fret value
iterates in insertion order. -/
def dedupFirst (l : List Int) : List Int :=
  l.foldl (fun acc x => if acc.contains x then acc else acc ++ [x]) []

/-- cagedSystemEnhanced.ts absoluteFretsToChordPosition: absolute frets to a
relative-fret ChordPosition with baseFret and barre detection. -/
def absoluteFretsToChordPosition (absoluteFrets : List Int) (shape : Shape)
    (quality : Quality) : ChordPosition :=
  let playedFrets := absoluteFrets.filter (fun f => 0 < f)
  let baseFret : Int := if playedFrets.isEmpty then 1 else listMinD playedFrets 1
  let relativeFrets := absoluteFrets.map (fun fret =>
    if fret = -1 then -1
    else if fret = 0 then 0
    else if baseFret = 1 then fret
    else fret - baseFret + 1)
  let positives := relativeFrets.filter (fun f => 0 < f)
  let barres := (dedupFirst positives).filterMap (fun fret =>
    if 2 ≤ positives.count fret then
      some (if baseFret = 1 then fret else baseFret + fret - 1)
    else none)
  let template := CAGED_SHAPES shape quality
  ⟨relativeFrets, template.fingers, barres, baseFret, []⟩

/-- The order relation induced by the chordDatabase.ts sortByDifficulty
comparator: `a` may come before `b` (comparator value at most 0). -/
def difficultyLE (a b : ChordPosition) : Bool :=
  let aHasOpen := a.frets.any (fun f => f = 0)
  let bHasOpen := b.frets.any (fun f => f = 0)
  if aHasOpen ∧ ¬ bHasOpen then true
  else if ¬ aHasOpen ∧ bHasOpen then false
  else if a.barres.length ≠ b.barres.length then a.barres.length < b.barres.length
  else a.baseFret ≤ b.baseFret

/-- chordDatabase.ts sortByDifficulty: stable sort by the difficulty
comparator. JavaScript Array.prototype.sort is stable, and a stable sort with
respect to a total preorder has a unique result, here computed by stable
insertion sort. -/
def sortByDifficulty (voicings : List ChordPosition) : List ChordPosition :=
  voicings.insertionSort (fun a b => difficultyLE a b = true)

/-- chordDatabase.ts filterVoicingsByPosition. -/
def filterVoicingsByPosition (voicings : List ChordPosition) (minFret maxFret : Int) :
    List ChordPosition :=
  voicings.filter (fun v =>
    let activeFrets := v.frets.filter (fun f => 0 < f)
    if activeFrets.isEmpty then true
    else
      let maxFretInVoicing := listMaxD activeFrets 0
      decide (minFret ≤ maxFretInVoicing ∧ maxFretInVoicing ≤ maxFret))

/-- The options record of cagedSystemEnhanced.ts getValidatedCAGEDVoicings
(defaults: 10, 0, 15, true). -/
structure GVOptions where
  maxVoicings : Nat
  minFret : Int
  maxFret : Int
  onlyValidated : Bool
deriving DecidableEq, Repr

/-- The default options of getValidatedCAGEDVoicings. -/
def defaultGVOptions : GVOptions := ⟨10, 0, 15, true⟩

/-- An enhanced chord voicing (cagedSystemEnhanced.ts EnhancedChordVoicing);
theoretical notes are carried as pitch classes. -/
structure EnhancedChordVoicing where
  name : String
  frets : List Int
  baseFret : Int
  fingers : List Nat
  position : Int
  cagedShape : Shape
  difficulty : Difficulty
  barrePositions : List Int
  midi : List Nat
  validated : Bool
  theoreticalNotes : List Nat
deriving DecidableEq, Repr

/-- The quality-string mapping at step 4.5 of getValidatedCAGEDVoicings. -/
def qualityToTemplate (quality : String) : Option Quality :=
  if quality = "" ∨ quality = "major" then some .major
  else if quality = "m" ∨ quality = "minor" then some .minor
  else none

/-- The shape name string of a CAGED shape label. -/
def Shape.str : Shape → String
  | .C => "C"
  | .A => "A"
  | .G => "G"
  | .E => "E"
  | .D => "D"

/-- The fixed shape list iterated at step 4.5 of getValidatedCAGEDVoicings. -/
def allShapes : List Shape := [.C, .A, .G, .E, .D]

/-- Step 4.5 of getValidatedCAGEDVoicings: generate the CAGED shapes missing
from the database-derived set via the shape templates. A `none` from
transposeShape models the caught exception. -/
def generateMissingShapes (oracle : Oracle) (root : String) (qualityMapped : Quality)
    (presentShapes : List Shape) (minFret maxFret : Int) : List ChordPosition :=
  allShapes.filterMap (fun shape =>
    if presentShapes.contains shape then none
    else
      match transposeShape oracle root shape qualityMapped true with
      | none => none
      | some absoluteFrets =>
        if absoluteFrets.any (fun fret => fret < -1) then none
        else
          let chordPosition := absoluteFretsToChordPosition absoluteFrets shape qualityMapped
          if chordPosition.frets.any (fun fret => fret < -1) then none
          else if minFret ≤ chordPosition.baseFret ∧ chordPosition.baseFret ≤ maxFret then
            some chordPosition
          else none)

/-- The per-position enhancement at step 5 of getValidatedCAGEDVoicings. -/
def enhancePosition (root quality : String) (theoreticalNotes : List Nat)
    (pos : ChordPosition) : EnhancedChordVoicing :=
  let cagedShape := determineCAGEDShape pos.frets pos.baseFret
  { name := root ++ quality ++ " (" ++ cagedShape.str ++ " Shape)"
    frets := pos.frets
    baseFret := pos.baseFret
    fingers := pos.fingers
    position := pos.baseFret
    cagedShape := cagedShape
    difficulty := calculateDifficulty pos pos.baseFret
    barrePositions := pos.barres
    midi := pos.midi
    validated := validateChordVoicing (toAbsoluteFrets pos) theoreticalNotes
    theoreticalNotes := theoreticalNotes }

/-- cagedSystemEnhanced.ts getValidatedCAGEDVoicings. The external
collaborators are passed in: `oracle` is the chord-tone oracle (getChordNotes)
and `dbLookup` the chords-db voicing lookup (getChordVoicingsFromDB). -/
def getValidatedCAGEDVoicings (oracle : Oracle)
    (dbLookup : String → String → List ChordPosition)
    (root quality : String) (opts : GVOptions) : List EnhancedChordVoicing :=
  let theoreticalNotes := oracle root quality
  if theoreticalNotes.isEmpty then []
  else
    let dbVoicings0 := dbLookup root quality
    if dbVoicings0.isEmpty then []
    else
      let dbVoicings1 := filterVoicingsByPosition dbVoicings0 opts.minFret opts.maxFret
      let dbVoicings2 := sortByDifficulty dbVoicings1
      let dbVoicings3 :=
        match qualityToTemplate quality with
        | none => dbVoicings2
        | some qualityMapped =>
          let presentShapes :=
            dbVoicings2.map (fun (v : ChordPosition) => determineCAGEDShape v.frets v.baseFret)
          dbVoicings2 ++
            generateMissingShapes oracle root qualityMapped presentShapes opts.minFret opts.maxFret
      let enhancedVoicings := dbVoicings3.map (enhancePosition root quality theoreticalNotes)
      let filteredVoicings :=
        if opts.onlyValidated then enhancedVoicings.filter (fun v => v.validated)
        else enhancedVoicings
      filteredVoicings.take opts.maxVoicings

namespace CagedSystem

/-- A generated chord voicing (cagedSystem.ts ChordVoicing). -/
structure ChordVoicing where
  name : String
  frets : List Int
  position : Int
  cagedShape : Shape
  difficulty : Difficulty
  barrePositions : List Int
deriving DecidableEq, Repr

/-- cagedSystem.ts getNoteIndex: chromatic index of a note name, -1 when the
name is not recognized (it shares the chromatic table and flat-to-sharp map
with cagedShapes.ts). -/
def getNoteIndex (note : String) : Int :=
  match noteIndexOf (normalizeNoteName note) with
  | some i => (i : Int)
  | none => -1

/-- A base open chord shape of cagedSystem.ts (one entry of the base shape
tables). -/
structure BaseShape where
  frets : List Int
  rootString : Nat
  rootFret : Int
  movable : Bool
deriving DecidableEq, Repr

/-- cagedSystem.ts baseMajorShapes. -/
def baseMajorShapes : Shape → BaseShape
  | .C => ⟨[-1, 3, 2, 0, 1, 0], 5, 3, false⟩
  | .A => ⟨[-1, 0, 2, 2, 2, 0], 5, 0, true⟩
  | .G => ⟨[3, 2, 0, 0, 0, 3], 6, 3, true⟩
  | .E => ⟨[0, 2, 2, 1, 0, 0], 6, 0, true⟩
  | .D => ⟨[-1, -1, 0, 2, 3, 2], 4, 0, true⟩

/-- cagedSystem.ts baseMinorShapes. -/
def baseMinorShapes : Shape → BaseShape
  | .A => ⟨[-1, 0, 2, 2, 1, 0], 5, 0, true⟩
  | .G => ⟨[3, 1, 0, 0, 3, 3], 6, 3, true⟩
  | .E => ⟨[0, 2, 2, 0, 0, 0], 6, 0, true⟩
  | .D => ⟨[-1, -1, 0, 2, 3, 1], 4, 0, true⟩
  | .C => ⟨[-1, 3, 1, 0, 1, 3], 5, 3, true⟩

/-- cagedSystem.ts baseMaj7Shapes. -/
def baseMaj7Shapes : Shape → BaseShape
  | .C => ⟨[-1, 3, 2, 0, 0, 0], 5, 3, true⟩
  | .A => ⟨[-1, 0, 2, 1, 2, 0], 5, 0, true⟩
  | .G => ⟨[3, 2, 0, 0, 0, 2], 6, 3, true⟩
  | .E => ⟨[0, 2, 1, 1, 0, 0], 6, 0, true⟩
  | .D => ⟨[-1, -1, 0, 2, 2, 2], 4, 0, true⟩

/-- cagedSystem.ts baseMin7Shapes. -/
def baseMin7Shapes : Shape → BaseShape
  | .A => ⟨[-1, 0, 2, 0, 1, 0], 5, 0, true⟩
  | .G => ⟨[3, 5, 3, 3, 3, 3], 6, 3, true⟩
  | .E => ⟨[0, 2, 0, 0, 0, 0], 6, 0, true⟩
  | .D => ⟨[-1, -1, 0, 2, 1, 1], 4, 0, true⟩
  | .C => ⟨[-1, 3, 1, 3, 4, 3], 5, 3, true⟩

/-- cagedSystem.ts baseDom7Shapes. -/
def baseDom7Shapes : Shape → BaseShape
  | .C => ⟨[-1, 3, 2, 3, 1, 0], 5, 3, true⟩
  | .A => ⟨[-1, 0, 2, 0, 2, 0], 5, 0, true⟩
  | .G => ⟨[3, 2, 0, 0, 0, 1], 6, 3, true⟩
  | .E => ⟨[0, 2, 0, 1, 0, 0], 6, 0, true⟩
  | .D => ⟨[-1, -1, 0, 2, 1, 2], 4, 0, true⟩

/-- cagedSystem.ts baseSus2Shapes. -/
def baseSus2Shapes : Shape → BaseShape
  | .C => ⟨[-1, 3, 0, 0, 3, 3], 5, 3, true⟩
  | .A => ⟨[-1, 0, 2, 2, 0, 0], 5, 0, true⟩
  | .G => ⟨[3, 0, 0, 0, 3, 3], 6, 3, true⟩
  | .E => ⟨[0, 2, 4, 4, 0, 0], 6, 0, true⟩
  | .D => ⟨[-1, -1, 0, 2, 3, 0], 4, 0, true⟩

/-- cagedSystem.ts baseSus4Shapes. -/
def baseSus4Shapes : Shape → BaseShape
  | .C => ⟨[-1, 3, 3, 0, 1, 1], 5, 3, true⟩
  | .A => ⟨[-1, 0, 2, 2, 3, 0], 5, 0, true⟩
  | .G => ⟨[3, 3, 0, 0, 1, 3], 6, 3, true⟩
  | .E => ⟨[0, 2, 2, 2, 0, 0], 6, 0, true⟩
  | .D => ⟨[-1, -1, 0, 2, 3, 3], 4, 0, true⟩

/-- cagedSystem.ts cagedOrderMajor. -/
def cagedOrderMajor : List Shape := [.C, .A, .G, .E, .D]

/-- cagedSystem.ts cagedOrderMinor. -/
def cagedOrderMinor : List Shape := [.A, .G, .E, .D, .C]

/-- cagedSystem.ts transposeShape (the semitone-based helper): returns the
transposed frets, the root position, and the barre positions. The minimum in
the open-string branch is taken over a list that is nonempty there (it
contains the open string); the 0 for the empty case is unreachable. -/
def transposeShape (baseShape : List Int) (semitones : Int) (rootFret : Int) :
    List Int × Int × List Int :=
  let hasOpenStrings := baseShape.any (fun f => decide (f = 0))
  let position := rootFret + semitones
  if hasOpenStrings ∧ 0 < semitones then
    let minFret : Int := listMinD (baseShape.filter (fun f => decide (0 ≤ f))) 0
    let newFrets := baseShape.map (fun f => if 0 ≤ f then f + semitones else f)
    let barrePositions := if (minFret : Int) = 0 then [semitones] else []
    (newFrets, position, barrePositions)
  else
    let newFrets := baseShape.map (fun f => if 0 < f then f + semitones else f)
    (newFrets, position, [])

/-- The base-shape table and CAGED order selected by the quality cascade in
cagedSystem.ts generateCAGEDVoicings. -/
def shapesForQuality (quality : String) : (Shape → BaseShape) × List Shape :=
  if quality = "maj7" then (baseMaj7Shapes, cagedOrderMajor)
  else if quality = "m7" ∨ quality = "min7" then (baseMin7Shapes, cagedOrderMinor)
  else if quality = "7" then (baseDom7Shapes, cagedOrderMajor)
  else if quality = "sus2" then (baseSus2Shapes, cagedOrderMajor)
  else if quality = "sus4" then (baseSus4Shapes, cagedOrderMajor)
  else if quality = "m" ∨ quality = "min" ∨ quality = "minor" then
    (baseMinorShapes, cagedOrderMinor)
  else (baseMajorShapes, cagedOrderMajor)

/-- The unplayable-position filter of generateCAGEDVoicings: the maximum
fretted position exceeds fret 15 (Math.max of an empty list is negative
infinity, hence never too high). -/
def tooHighCheck (frets : List Int) : Bool :=
  let positives := frets.filter (fun f => 0 < f)
  if positives.isEmpty then false else decide (15 < listMaxD positives 0)

/-- The body of the per-shape loop in generateCAGEDVoicings: `none` when the
voicing is skipped for sitting too high on the neck. -/
def voicingForShape (rootIndex : Int) (baseShapes : Shape → BaseShape) (shape : Shape) :
    Option ChordVoicing :=
  let base := baseShapes shape
  let baseNoteIndex := getNoteIndex shape.str
  let semitones := (rootIndex - baseNoteIndex + 12) % 12
  let result := transposeShape base.frets semitones base.rootFret
  let frets := result.1
  let position := result.2.1
  let barrePositions := result.2.2
  if tooHighCheck frets then none
  else
    let difficulty :=
      if ¬ barrePositions.isEmpty then
        if 5 < barrePositions.headD 0 then Difficulty.advanced else Difficulty.intermediate
      else if 7 < position then Difficulty.intermediate
      else Difficulty.beginner
    let positionName := if position = 0 then "Open" else toString position ++ "th Position"
    some ⟨shape.str ++ " Shape (" ++ positionName ++ ")", frets, position, shape,
      difficulty, barrePositions⟩

/-- cagedSystem.ts generateCAGEDVoicings; `none` models the exception thrown
for an invalid root note. -/
def generateCAGEDVoicings (rootNote : String) (quality : String) :
    Option (List ChordVoicing) :=
  let rootIndex := getNoteIndex rootNote
  if rootIndex = -1 then none
  else
    let selected := shapesForQuality quality
    some ((selected.2.filterMap (voicingForShape rootIndex selected.1)).take 5)

/-- cagedSystem.ts getChordShape: first generated voicing's frets, with the
all-open fallback for invalid notes or an empty generation. -/
def getChordShape (rootNote : String) (quality : String) : List Int :=
  match generateCAGEDVoicings rootNote quality with
  | none => [0, 0, 0, 0, 0, 0]
  | some voicings =>
    match voicings with
    | [] => [0, 0, 0, 0, 0, 0]
    | v :: _ => v.frets

end CagedSystem

/-- The spec's pitchClassOf (§4.1): normalize flats to sharps, then look the
name up in the chromatic table; failure for unrecognized names. -/
def pitchClassOf (noteName : String) : Option Nat :=
  noteIndexOf (normalizeNoteName noteName)

/-- The spec's findFretForPitchClass (§4.1): the unique first-octave fret where
a string produces the target pitch class, (target - tuning + 12) mod 12. -/
def findFretForPitchClass (targetPitchClass : Nat) (stringIndex : Nat) : Int :=
  (((targetPitchClass : Int)) - (tuningChromas.getD stringIndex 0 : Int) + 12) % 12

/-- The Shape Transposer computation exactly as the specification words it
(§4.2 steps 1-4): target root fret via findFretForPitchClass, offset against
the template's base-form root fret, muted sentinel preserved, every other
string shifted by the offset. Stated for comparison with the source-derived
transposeShape. -/
def transposeShapeSpec (root : String) (s : Shape) (q : Quality) : Option (List Int) :=
  match pitchClassOf root with
  | none => none
  | some pc =>
    let template := CAGED_SHAPES s q
    let targetRootFret := findFretForPitchClass pc template.rootString
    let offset := targetRootFret - template.rootFret
    some (template.frets.map (fun f => if f = -1 then -1 else f + offset))

/-- The property the specification's validated-voicing invariant claims: every
non-muted string of the voicing's absolute fret pattern sounds a pitch class
belonging to the chord-tone set. -/
def soundsOnlyChordTones (v : EnhancedChordVoicing) (chordChromas : List Nat) : Bool :=
  (toAbs v.frets v.baseFret).enum.all (fun p =>
    if p.2 < 0 then true
    else (chordChromas.map (fun (t : Nat) => (t : Int))).contains (fretChroma p.1 p.2))

/-- A concrete database answer: one C major voicing that sounds all three
chord tones and additionally an F (fret 1 on the high E string). -/
def cexDbForeign : String → String → List ChordPosition := fun root quality =>
  if root = "C" ∧ quality = "major" then
    [⟨[-1, 3, 2, 0, 1, 1], [0, 3, 2, 0, 1, 1], [], 1, []⟩]
  else []

/-- A concrete database answer: two distinct open C major voicings that both
classify as the C shape. -/
def cexDbDup : String → String → List ChordPosition := fun root quality =>
  if root = "C" ∧ quality = "major" then
    [⟨[-1, 3, 2, 0, 1, 0], [0, 3, 2, 0, 1, 0], [], 1, []⟩,
     ⟨[-1, 3, 2, 0, 1, 1], [0, 3, 2, 0, 1, 1], [], 1, []⟩]
  else []

/-- A concrete database answer: the open A major voicing only. -/
def cexDbOpenA : String → String → List ChordPosition := fun root quality =>
  if root = "A" ∧ quality = "major" then
    [⟨[-1, 0, 2, 2, 2, 0], [0, 0, 2, 3, 4, 0], [], 1, []⟩]
  else []

/-- The well-formedness invariant of spec §8: exactly 6 fret values, each an
integer in [-1, 24]. -/
def wfFrets (frets : List Int) : Prop :=
  frets.length = 6 ∧ ∀ f ∈ frets, -1 ≤ f ∧ f ≤ 24

instance (frets : List Int) : Decidable (wfFrets frets) := by
  unfold wfFrets
  infer_instance

theorem length_mapWithIndex (f : Nat → α → β) (i : Nat) (l : List α) :
    (mapWithIndex f i l).length = l.length := by
  induction l generalizing i with
  | nil => rfl
  | cons a as ih => simp [mapWithIndex, ih]

theorem getD_mapWithIndex (f : Nat → Int → Int) (i k : Nat) (l : List Int)
    (hk : k < l.length) : (mapWithIndex f i l).getD k 0 = f (i + k) (l.getD k 0) := by
  induction l generalizing i k with
  | nil => simp at hk
  | cons a as ih =>
    cases k with
    | zero => simp [mapWithIndex]
    | succ k =>
      simp only [mapWithIndex, List.getD_cons_succ]
      rw [ih (i + 1) k (by simpa using hk)]
      ring_nf

theorem mem_mapWithIndex {f : Nat → α → β} {i : Nat} {l : List α} {b : β}
    (h : b ∈ mapWithIndex f i l) : ∃ j a, a ∈ l ∧ b = f j a := by
  induction l generalizing i with
  | nil => simp [mapWithIndex] at h
  | cons a as ih =>
    simp only [mapWithIndex, List.mem_cons] at h
    rcases h with h | h
    · exact ⟨i, a, List.mem_cons_self a as, h⟩
    · obtain ⟨j, x, hx, hb⟩ := ih h
      exact ⟨j, x, List.mem_cons_of_mem a hx, hb⟩

theorem validateFret_cases (th : List Nat) (i : Nat) (f : Int) :
    validateFret th i f = -1 ∨
      (validateFret th i f = f ∧ 0 ≤ f ∧
        fretChroma i f ∈ th.map (fun (t : Nat) => (t : Int))) := by
  unfold validateFret
  by_cases h1 : f = -1
  · simp [h1]
  · by_cases h2 : f < 0
    · simp [h1, h2]
    · by_cases h3 : th.any (fun t => (t : Int) == fretChroma i f)
      · right
        refine ⟨by simp [h1, h2, h3], by omega, ?_⟩
        obtain ⟨t, ht, heq⟩ := List.any_eq_true.mp h3
        rw [← beq_iff_eq.mp heq]
        exact List.mem_map_of_mem _ ht
      · simp [h1, h2, h3]

theorem validateFret_neg (th : List Nat) (i : Nat) (f : Int) (h : f < 0) :
    validateFret th i f = -1 := by
  unfold validateFret
  by_cases h1 : f = -1
  · simp [h1]
  · simp [h1, h]

theorem template_facts (s : Shape) (q : Quality) :
    (CAGED_SHAPES s q).frets.length = 6 ∧ 0 ≤ (CAGED_SHAPES s q).rootFret ∧
      (∀ f ∈ (CAGED_SHAPES s q).frets, -1 ≤ f ∧ f ≤ 3) ∧
      (CAGED_SHAPES s q).rootString < 6 := by
  cases s <;> cases q <;> decide

theorem getNoteOnString_bounds {note : String} {i : Nat} {t : Int}
    (h : getNoteOnString note i = some t) : 0 ≤ t ∧ t < 12 := by
  simp only [getNoteOnString] at h
  split at h
  · simp only [Option.some.injEq] at h
    subst h
    exact ⟨Int.emod_nonneg _ (by decide), Int.emod_lt_of_pos _ (by decide)⟩
  · simp at h

theorem getNoteOnString_eq (note : String) (i : Nat) (hi : i < 6) :
    getNoteOnString note i = (pitchClassOf note).map (fun pc => findFretForPitchClass pc i) := by
  have e0 : noteIndexOf "E" = some 4 := by decide
  have e1 : noteIndexOf "A" = some 9 := by decide
  have e2 : noteIndexOf "D" = some 2 := by decide
  have e3 : noteIndexOf "G" = some 7 := by decide
  have e4 : noteIndexOf "B" = some 11 := by decide
  interval_cases i <;>
    cases h : noteIndexOf (normalizeNoteName note) <;>
      simp [getNoteOnString, pitchClassOf, findFretForPitchClass, stringTuning, tuningChromas,
        e0, e1, e2, e3, e4, h]

theorem getNoteOnString_eq_some (note : String) (s : Shape) (q : Quality)
    (h : (noteIndexOf (normalizeNoteName note)).isSome) :
    ∃ t, getNoteOnString note (CAGED_SHAPES s q).rootString = some t ∧ 0 ≤ t ∧ t < 12 := by
  obtain ⟨n, hn⟩ := Option.isSome_iff_exists.mp h
  rw [getNoteOnString_eq note _ (template_facts s q).2.2.2]
  refine ⟨findFretForPitchClass n (CAGED_SHAPES s q).rootString, ?_, ?_, ?_⟩
  · simp [pitchClassOf, hn]
  · exact Int.emod_nonneg _ (by decide)
  · exact Int.emod_lt_of_pos _ (by decide)

/-- C1: for every root accepted by the note normalizer, every shape and both
qualities, with validation enabled and a non-empty chord-tone oracle answer,
transposeShape returns an array of 6 values each equal to -1 or at least 0,
and every non-muted value sounds a pitch class belonging to the chord's
theoretical pitch-class set. -/
theorem claim_c1 (oracle : Oracle) (root : String) (s : Shape) (q : Quality)
    (hroot : (noteIndexOf (normalizeNoteName root)).isSome)
    (hnotes : oracle root q.str ≠ []) :
    ∃ fs, transposeShape oracle root s q true = some fs ∧ fs.length = 6 ∧
      ∀ i, i < 6 → fs.getD i 0 = -1 ∨
        (0 ≤ fs.getD i 0 ∧
          fretChroma i (fs.getD i 0) ∈ (oracle root q.str).map (fun (t : Nat) => (t : Int))) := by
  obtain ⟨t, hg, ht0, ht12⟩ := getNoteOnString_eq_some root s q hroot
  have hlen6 : (CAGED_SHAPES s q).frets.length = 6 := (template_facts s q).1
  have hE : (oracle root q.str).isEmpty = false := by
    cases hL : oracle root q.str with
    | nil => exact absurd hL hnotes
    | cons a l => rfl
  refine ⟨mapWithIndex (validateFret (oracle root q.str)) 0
      ((CAGED_SHAPES s q).frets.map
        (fun fret => if fret = -1 then -1 else fret + (t - (CAGED_SHAPES s q).rootFret))),
    ?_, ?_, ?_⟩
  · simp [transposeShape, hg, hE]
  · rw [length_mapWithIndex, List.length_map, hlen6]
  · intro i hi
    have hilen : i < ((CAGED_SHAPES s q).frets.map
        (fun fret => if fret = -1 then -1 else fret + (t - (CAGED_SHAPES s q).rootFret))).length := by
      rw [List.length_map, hlen6]; exact hi
    rw [getD_mapWithIndex _ 0 i _ hilen]
    simp only [Nat.zero_add]
    rcases validateFret_cases (oracle root q.str) i _ with h | ⟨heq, hpos, hmem⟩
    · exact Or.inl h
    · exact Or.inr ⟨by rw [heq]; exact hpos, by rw [heq]; exact hmem⟩

theorem claim_c1_witness :
    ∃ fs, transposeShape (fun _ _ => [0, 4, 7]) "C" Shape.C Quality.major true = some fs ∧
      fs.length = 6 ∧
      ∀ i, i < 6 → fs.getD i 0 = -1 ∨
        (0 ≤ fs.getD i 0 ∧
          fretChroma i (fs.getD i 0) ∈ ([0, 4, 7] : List Nat).map (fun (t : Nat) => (t : Int))) :=
  claim_c1 (fun _ _ => [0, 4, 7]) "C" Shape.C Quality.major (by decide) (by decide)

/-- C3: with validation disabled, transposeShape computes exactly the spec's
algorithm (findFretForPitchClass target root fret in [0, 11], offset against
the base-form root fret, muted sentinel preserved, all other strings shifted),
here stated as equality with the spec-worded transposeShapeSpec together with
the range of the target root fret. -/
theorem claim_c3 (oracle : Oracle) (root : String) (s : Shape) (q : Quality) :
    transposeShape oracle root s q false = transposeShapeSpec root s q ∧
    ∀ t, getNoteOnString root (CAGED_SHAPES s q).rootString = some t → 0 ≤ t ∧ t < 12 := by
  constructor
  · simp only [transposeShape, transposeShapeSpec]
    rw [getNoteOnString_eq root (CAGED_SHAPES s q).rootString (template_facts s q).2.2.2]
    cases pitchClassOf root <;> simp
  · intro t ht
    exact getNoteOnString_bounds ht

theorem claim_c3_witness :
    (transposeShape chordTones "C" Shape.C Quality.major false =
        transposeShapeSpec "C" Shape.C Quality.major) ∧
    (0 ≤ (3 : Int) ∧ (3 : Int) < 12) :=
  ⟨(claim_c3 chordTones "C" Shape.C Quality.major).1,
    (claim_c3 chordTones "C" Shape.C Quality.major).2 3 (by decide)⟩

theorem length_six_cases {α : Type _} (l : List α) (h : l.length = 6) :
    ∃ a b c d e f, l = [a, b, c, d, e, f] := by
  match l, h with
  | [a, b, c, d, e, f], _ => exact ⟨a, b, c, d, e, f, rfl⟩
  | [], h => simp at h
  | [_], h => simp at h
  | [_, _], h => simp at h
  | [_, _, _], h => simp at h
  | [_, _, _, _], h => simp at h
  | [_, _, _, _, _], h => simp at h
  | _ :: _ :: _ :: _ :: _ :: _ :: _ :: _, h => simp at h

/-- C8: for every 6-element fret array and base fret whose normalization to
absolute frets has strings 0 and 1 muted and string 2 played, the shape
classifier returns D. -/
theorem claim_c8 (frets : List Int) (baseFret : Int) (hlen : frets.length = 6)
    (h0 : (normalizeToAbsolute frets baseFret).getD 0 0 = -1)
    (h1 : (normalizeToAbsolute frets baseFret).getD 1 0 = -1)
    (h2 : 0 ≤ (normalizeToAbsolute frets baseFret).getD 2 0) :
    determineCAGEDShape frets baseFret = Shape.D := by
  have hAlen : (normalizeToAbsolute frets baseFret).length = 6 := by
    unfold normalizeToAbsolute
    split <;> simp [hlen]
  obtain ⟨a, b, c, d, e, f, hA⟩ := length_six_cases _ hAlen
  rw [hA] at h0 h1 h2
  simp only [List.getD_cons_zero, List.getD_cons_succ] at h0 h1 h2
  subst h0
  subst h1
  simp [determineCAGEDShape, hA, List.enum, List.enumFrom, h2]

theorem claim_c8_witness :
    ([-1, -1, 0, 2, 3, 2] : List Int).length = 6 ∧
    determineCAGEDShape [-1, -1, 0, 2, 3, 2] 1 = Shape.D :=
  ⟨by decide, claim_c8 [-1, -1, 0, 2, 3, 2] 1 (by decide) (by decide) (by decide) (by decide)⟩

/-- C2, amended: what a validated voicing actually guarantees is the superset
direction — every pitch class of the chord-tone set is sounded on at least one
non-muted string of the voicing's absolute fret pattern (validateChordVoicing);
a sounding pitch class foreign to the chord is not excluded. -/
theorem claim_c2_amended (oracle : Oracle)
    (dbLookup : String → String → List ChordPosition)
    (root quality : String) (opts : GVOptions) (honly : opts.onlyValidated = true)
    (v : EnhancedChordVoicing)
    (hv : v ∈ getValidatedCAGEDVoicings oracle dbLookup root quality opts) :
    validateChordVoicing (toAbs v.frets v.baseFret) (oracle root quality) = true := by
  simp only [getValidatedCAGEDVoicings] at hv
  cases hO : (oracle root quality).isEmpty with
  | true => rw [hO] at hv; simp at hv
  | false =>
    rw [hO] at hv
    cases hD : (dbLookup root quality).isEmpty with
    | true => rw [hD] at hv; simp at hv
    | false =>
      rw [hD] at hv
      simp only [Bool.false_eq_true, if_false, honly, if_true] at hv
      have hv2 := List.mem_of_mem_take hv
      rw [List.mem_filter] at hv2
      obtain ⟨hmem, hval⟩ := hv2
      rw [List.mem_map] at hmem
      obtain ⟨pos, _, hpos⟩ := hmem
      subst hpos
      simpa [enhancePosition, toAbsoluteFrets, toAbs] using hval

theorem claim_c2_amended_witness :
    validateChordVoicing (toAbs [-1, 3, 2, 0, 1, 1] 1) (chordTones "C" "major") = true :=
  claim_c2_amended chordTones cexDbForeign "C" "major" defaultGVOptions rfl
    ⟨"Cmajor (C Shape)", [-1, 3, 2, 0, 1, 1], 1, [0, 3, 2, 0, 1, 1], 1, Shape.C,
      Difficulty.beginner, [], [], true, [0, 4, 7]⟩ (by decide)

/-- C5, amended: the Shape Transposer does not reject a transposition whose
offset drives an originally-playable string to a negative fret; with
validation enabled it returns a fret array in which every such string is
silently muted, and no value below -1 ever remains (so the assembler's
invalid-fret rejection cannot fire on a validated transposition). -/
theorem claim_c5_amended (oracle : Oracle) (root : String) (s : Shape) (q : Quality)
    (hnotes : oracle root q.str ≠ []) (fs gs : List Int)
    (hv : transposeShape oracle root s q true = some fs)
    (hu : transposeShape oracle root s q false = some gs) :
    (∀ f ∈ fs, -1 ≤ f) ∧ ∀ i, i < 6 → gs.getD i 0 < 0 → fs.getD i 0 = -1 := by
  have hE : (oracle root q.str).isEmpty = false := by
    cases hL : oracle root q.str with
    | nil => exact absurd hL hnotes
    | cons a l => rfl
  simp only [transposeShape] at hv hu
  cases hg : getNoteOnString root (CAGED_SHAPES s q).rootString with
  | none => rw [hg] at hv; simp at hv
  | some t =>
    rw [hg] at hv hu
    simp only [hE, Bool.false_eq_true, if_false, if_true, Option.some.injEq] at hv hu
    subst hv
    subst hu
    constructor
    · intro f hf
      obtain ⟨j, a, _, hfa⟩ := mem_mapWithIndex hf
      rw [hfa]
      rcases validateFret_cases (oracle root q.str) j a with h | ⟨heq, hpos, _⟩
      · rw [h]
      · rw [heq]; omega
    · intro i hi hneg
      have hilen : i < ((CAGED_SHAPES s q).frets.map
          (fun fret => if fret = -1 then -1 else fret + (t - (CAGED_SHAPES s q).rootFret))).length := by
        rw [List.length_map, (template_facts s q).1]; exact hi
      rw [getD_mapWithIndex _ 0 i _ hilen]
      simp only [Nat.zero_add]
      exact validateFret_neg _ _ _ hneg

theorem claim_c5_amended_witness :
    (∀ f ∈ ([-1, 0, -1, -1, -1, -1] : List Int), -1 ≤ f) ∧
    ∀ i, i < 6 → ([-1, 0, -1, -3, -2, -3] : List Int).getD i 0 < 0 →
      ([-1, 0, -1, -1, -1, -1] : List Int).getD i 0 = -1 :=
  claim_c5_amended chordTones "A" Shape.C Quality.major (by decide) _ _ (by decide) (by decide)

/-- C9, amended: the assembler guarantees only the truncation part — the
returned list never exceeds the caller-specified maximum count; it does not
deduplicate database voicings by shape label and does not re-sort the final
list by base fret. -/
theorem claim_c9_amended (oracle : Oracle)
    (dbLookup : String → String → List ChordPosition)
    (root quality : String) (opts : GVOptions) :
    (getValidatedCAGEDVoicings oracle dbLookup root quality opts).length ≤ opts.maxVoicings := by
  simp only [getValidatedCAGEDVoicings]
  cases hO : (oracle root quality).isEmpty with
  | true => simp
  | false =>
    cases hD : (dbLookup root quality).isEmpty with
    | true => simp [hO]
    | false =>
      simp only [hO, hD, Bool.false_eq_true, if_false]
      rw [List.length_take]
      exact Nat.min_le_left _ _

/-- C4: the standalone transposition function returns exactly the four
concrete outputs the specification lists (validation enabled by default,
chord tones per the spec-modelled oracle). -/
theorem claim_c4 :
    transposeShape chordTones "C" Shape.C Quality.major true = some [-1, 3, 2, 0, 1, 0] ∧
    transposeShape chordTones "C" Shape.A Quality.major true = some [-1, 3, 5, 5, 5, 3] ∧
    transposeShape chordTones "G" Shape.E Quality.major true = some [3, 5, 5, 4, 3, 3] ∧
    transposeShape chordTones "D" Shape.D Quality.minor true = some [-1, -1, 0, 2, 3, 1] := by
  decide

/-- C7: in the open-position case (requested root equal to the template's
native root, zero offset, no oracle-forced muting), classifying the transposed
pattern returns the same shape label, for every shape and quality. -/
theorem claim_c7 (s : Shape) (q : Quality) :
    determineCAGEDShape ((transposeShape chordTones s.str s q true).getD []) 1 = s := by
  cases s <;> cases q <;> decide

/-- C2 counterexample: at root C major, with the default options (validation
filter on), the assembler returns a voicing sounding an F — a pitch class
foreign to the chord-tone set {C, E, G} — on a non-muted string, because
validateChordVoicing only checks that every chord tone is present somewhere. -/
theorem claim_c2_counterexample :
    chordTones "C" "major" = [0, 4, 7] ∧
    ((getValidatedCAGEDVoicings chordTones cexDbForeign "C" "major" defaultGVOptions).all
      (fun v => soundsOnlyChordTones v (chordTones "C" "major"))) = false := by
  decide

/-- C9 counterexample: at root C major, with the default options, the
assembler returns two voicings carrying the same CAGED shape label C — the
result is not deduplicated by shape label. -/
theorem claim_c9_counterexample :
    2 ≤ ((getValidatedCAGEDVoicings chordTones cexDbDup "C" "major" defaultGVOptions).map
      (fun v => v.cagedShape)).count Shape.C := by
  decide

/-- C5 counterexample: transposing the C shape to root A drives the
originally-playable strings 3-5 of the template to the negative frets
-3, -2, -3, yet the Shape Transposer still returns a fret array (those strings
silently muted by the validation pass rather than the transposition being
rejected), and the Voicing Assembler does not treat the shape as unavailable:
the degenerate pattern appears in its results. -/
theorem claim_c5_counterexample :
    transposeShape chordTones "A" Shape.C Quality.major false = some [-1, 0, -1, -3, -2, -3] ∧
    transposeShape chordTones "A" Shape.C Quality.major true = some [-1, 0, -1, -1, -1, -1] ∧
    ((getValidatedCAGEDVoicings chordTones cexDbOpenA "A" "major" ⟨10, 0, 15, false⟩).map
      (fun v => v.frets)).contains [-1, 0, -1, -1, -1, -1] = true := by
  decide

theorem foldl_min_le_init : ∀ (l : List Int) (a : Int), l.foldl min a ≤ a := by
  intro l
  induction l with
  | nil => intro a; simp
  | cons b bs ih =>
    intro a
    simp only [List.foldl_cons]
    have := ih (min a b)
    omega

theorem foldl_min_le {x : Int} : ∀ (l : List Int) (a : Int), x ∈ a :: l → l.foldl min a ≤ x := by
  intro l
  induction l with
  | nil => intro a hx; simp at hx; simp [hx]
  | cons b bs ih =>
    intro a hx
    simp only [List.foldl_cons]
    rcases List.mem_cons.mp hx with rfl | hx2
    · have h1 := foldl_min_le_init bs (min x b)
      omega
    · rcases List.mem_cons.mp hx2 with rfl | hx3
      · have h1 := foldl_min_le_init bs (min a x)
        omega
      · exact ih (min a b) (List.mem_cons_of_mem _ hx3)

theorem foldl_min_mem : ∀ (l : List Int) (a : Int), l.foldl min a ∈ a :: l := by
  intro l
  induction l with
  | nil => intro a; simp
  | cons b bs ih =>
    intro a
    simp only [List.foldl_cons]
    rcases List.mem_cons.mp (ih (min a b)) with h | h
    · rcases min_choice a b with hm | hm <;> rw [h, hm] <;> simp
    · exact List.mem_cons_of_mem _ (List.mem_cons_of_mem _ h)

theorem listMinD_le (l : List Int) (d x : Int) (hx : x ∈ l) : listMinD l d ≤ x := by
  cases l with
  | nil => simp at hx
  | cons a as => exact foldl_min_le as a hx

theorem listMinD_mem (l : List Int) (d : Int) (h : ¬ l.isEmpty = true) : listMinD l d ∈ l := by
  cases l with
  | nil => simp at h
  | cons a as => exact foldl_min_mem as a

theorem baseShape_facts (quality : String) (shape : Shape) :
    ((CagedSystem.shapesForQuality quality).1 shape).frets.length = 6 ∧
    ∀ f ∈ ((CagedSystem.shapesForQuality quality).1 shape).frets, -1 ≤ f ∧ f ≤ 5 := by
  unfold CagedSystem.shapesForQuality
  split_ifs <;> cases shape <;> decide

theorem cs_transposeShape_wf (baseShape : List Int) (semitones rootFret : Int)
    (hlen : baseShape.length = 6) (hb : ∀ f ∈ baseShape, -1 ≤ f ∧ f ≤ 5)
    (hs0 : 0 ≤ semitones) (hs1 : semitones ≤ 11) :
    wfFrets (CagedSystem.transposeShape baseShape semitones rootFret).1 := by
  simp only [CagedSystem.transposeShape]
  split
  · refine ⟨by simp [hlen], ?_⟩
    intro f hf
    obtain ⟨a, ha, rfl⟩ := List.mem_map.mp hf
    obtain ⟨h1, h2⟩ := hb a ha
    by_cases h0 : 0 ≤ a
    · rw [if_pos h0]; omega
    · rw [if_neg h0]; omega
  · refine ⟨by simp [hlen], ?_⟩
    intro f hf
    obtain ⟨a, ha, rfl⟩ := List.mem_map.mp hf
    obtain ⟨h1, h2⟩ := hb a ha
    by_cases h0 : 0 < a
    · rw [if_pos h0]; omega
    · rw [if_neg h0]; omega

theorem generate_mem_wf (rootNote quality : String) (l : List CagedSystem.ChordVoicing)
    (hgen : CagedSystem.generateCAGEDVoicings rootNote quality = some l) :
    ∀ v ∈ l, wfFrets v.frets := by
  intro v hv
  simp only [CagedSystem.generateCAGEDVoicings] at hgen
  by_cases hr : CagedSystem.getNoteIndex rootNote = -1
  · rw [if_pos hr] at hgen; exact absurd hgen (by simp)
  · rw [if_neg hr] at hgen
    simp only [Option.some.injEq] at hgen
    subst hgen
    obtain ⟨shape, hshape, hvs⟩ := List.mem_filterMap.mp (List.mem_of_mem_take hv)
    simp only [CagedSystem.voicingForShape] at hvs
    split at hvs
    · exact absurd hvs (by simp)
    · simp only [Option.some.injEq] at hvs
      subst hvs
      dsimp only
      apply cs_transposeShape_wf
      · exact (baseShape_facts quality shape).1
      · exact (baseShape_facts quality shape).2
      · exact Int.emod_nonneg _ (by decide)
      · have := Int.emod_lt_of_pos
          (CagedSystem.getNoteIndex rootNote - CagedSystem.getNoteIndex shape.str + 12)
          (show (0 : Int) < 12 by decide)
        omega

theorem transposeShape_le (oracle : Oracle) (root : String) (s : Shape) (q : Quality)
    (validate : Bool) (fs : List Int)
    (h : transposeShape oracle root s q validate = some fs) :
    fs.length = 6 ∧ ∀ f ∈ fs, f ≤ 14 := by
  simp only [transposeShape] at h
  cases hg : getNoteOnString root (CAGED_SHAPES s q).rootString with
  | none => rw [hg] at h; simp at h
  | some t =>
    rw [hg] at h
    obtain ⟨ht0, ht12⟩ := getNoteOnString_bounds hg
    have htempl := template_facts s q
    have htr : ∀ f ∈ (CAGED_SHAPES s q).frets.map
        (fun fret => if fret = -1 then -1 else fret + (t - (CAGED_SHAPES s q).rootFret)),
        f ≤ 14 := by
      intro f hf
      obtain ⟨a, ha, rfl⟩ := List.mem_map.mp hf
      obtain ⟨h1, h2⟩ := htempl.2.2.1 a ha
      have h3 := htempl.2.1
      by_cases hm : a = -1
      · rw [if_pos hm]; omega
      · rw [if_neg hm]; omega
    have hlen : ((CAGED_SHAPES s q).frets.map
        (fun fret => if fret = -1 then -1 else fret + (t - (CAGED_SHAPES s q).rootFret))).length
          = 6 := by
      simp [htempl.1]
    cases validate with
    | false =>
      simp only [Bool.false_eq_true, if_false, Option.some.injEq] at h
      subst h
      exact ⟨hlen, htr⟩
    | true =>
      dsimp only at h
      rw [if_pos rfl] at h
      split at h
      · simp only [Option.some.injEq] at h
        subst h
        exact ⟨hlen, htr⟩
      · simp only [Option.some.injEq] at h
        subst h
        refine ⟨by rw [length_mapWithIndex]; exact hlen, ?_⟩
        intro f hf
        obtain ⟨j, a, ha, rfl⟩ := mem_mapWithIndex hf
        rcases validateFret_cases (oracle root q.str) j a with hc | ⟨hc, _, _⟩
        · rw [hc]; omega
        · rw [hc]; exact htr a ha

theorem absToPos_wf (absoluteFrets : List Int) (s : Shape) (q : Quality)
    (hlen : absoluteFrets.length = 6)
    (hlo : ∀ f ∈ absoluteFrets, -1 ≤ f) (hhi : ∀ f ∈ absoluteFrets, f ≤ 14) :
    wfFrets (absoluteFretsToChordPosition absoluteFrets s q).frets := by
  simp only [absoluteFretsToChordPosition]
  refine ⟨by simp [hlen], ?_⟩
  intro f hf
  obtain ⟨a, ha, rfl⟩ := List.mem_map.mp hf
  have h1 := hlo a ha
  have h2 := hhi a ha
  by_cases hm : a = -1
  · rw [if_pos hm]; omega
  · rw [if_neg hm]
    by_cases h0 : a = 0
    · rw [if_pos h0]; omega
    · rw [if_neg h0]
      have ha1 : 1 ≤ a := by omega
      have haP : a ∈ absoluteFrets.filter (fun f => 0 < f) := by
        rw [List.mem_filter]
        exact ⟨ha, by simpa using ha1⟩
      have hPE : ¬ (absoluteFrets.filter (fun f => 0 < f)).isEmpty = true := by
        intro hcon
        rw [List.isEmpty_iff] at hcon
        rw [hcon] at haP
        simp at haP
      rw [if_neg hPE]
      have hble : listMinD (absoluteFrets.filter (fun f => 0 < f)) 1 ≤ a :=
        listMinD_le _ 1 a haP
      have hb1 : 1 ≤ listMinD (absoluteFrets.filter (fun f => 0 < f)) 1 := by
        have hmem := listMinD_mem (absoluteFrets.filter (fun f => 0 < f)) 1 hPE
        have := (List.mem_filter.mp hmem).2
        simp at this
        omega
      by_cases hb : listMinD (absoluteFrets.filter (fun f => 0 < f)) 1 = 1
      · rw [if_pos hb]; omega
      · rw [if_neg hb]; omega

theorem enhanced_mem_wf (oracle : Oracle) (dbLookup : String → String → List ChordPosition)
    (root quality : String) (opts : GVOptions)
    (hdb : ∀ pos ∈ dbLookup root quality, wfFrets pos.frets)
    (v : EnhancedChordVoicing)
    (hv : v ∈ getValidatedCAGEDVoicings oracle dbLookup root quality opts) :
    wfFrets v.frets := by
  simp only [getValidatedCAGEDVoicings] at hv
  cases hO : (oracle root quality).isEmpty with
  | true => rw [hO] at hv; simp at hv
  | false =>
    rw [hO] at hv
    cases hD : (dbLookup root quality).isEmpty with
    | true => rw [hD] at hv; simp at hv
    | false =>
      rw [hD] at hv
      simp only [Bool.false_eq_true, if_false] at hv
      have hv2 := List.mem_of_mem_take hv
      have hv3 : v ∈ List.map (enhancePosition root quality (oracle root quality))
          (match qualityToTemplate quality with
           | none =>
             sortByDifficulty (filterVoicingsByPosition (dbLookup root quality)
               opts.minFret opts.maxFret)
           | some qualityMapped =>
             sortByDifficulty (filterVoicingsByPosition (dbLookup root quality)
               opts.minFret opts.maxFret) ++
               generateMissingShapes oracle root qualityMapped
                 ((sortByDifficulty (filterVoicingsByPosition (dbLookup root quality)
                   opts.minFret opts.maxFret)).map
                   (fun (v : ChordPosition) => determineCAGEDShape v.frets v.baseFret))
                 opts.minFret opts.maxFret) := by
        cases honly : opts.onlyValidated with
        | true =>
          rw [honly] at hv2
          rw [if_pos rfl] at hv2
          exact (List.mem_filter.mp hv2).1
        | false =>
          rw [honly] at hv2
          simpa using hv2
      obtain ⟨pos, hpos, hveq⟩ := List.mem_map.mp hv3
      subst hveq
      have hgoal : wfFrets pos.frets → wfFrets (enhancePosition root quality
          (oracle root quality) pos).frets := by
        intro hwf
        simpa [enhancePosition] using hwf
      apply hgoal
      cases hqt : qualityToTemplate quality with
      | none =>
        rw [hqt] at hpos
        exact hdb pos (List.mem_filter.mp
          ((List.perm_insertionSort _ _).mem_iff.mp hpos)).1
      | some qm =>
        rw [hqt] at hpos
        rcases List.mem_append.mp hpos with hmem | hmem
        · exact hdb pos (List.mem_filter.mp
            ((List.perm_insertionSort _ _).mem_iff.mp hmem)).1
        · simp only [generateMissingShapes] at hmem
          obtain ⟨shape, hshape, hgen⟩ := List.mem_filterMap.mp hmem
          split at hgen
          · exact absurd hgen (by simp)
          · cases htr : transposeShape oracle root shape qm true with
            | none => rw [htr] at hgen; exact absurd hgen (by simp)
            | some absFrets =>
              rw [htr] at hgen
              simp only at hgen
              split at hgen
              · exact absurd hgen (by simp)
              · next hany =>
                split at hgen
                · exact absurd hgen (by simp)
                · split at hgen
                  · simp only [Option.some.injEq] at hgen
                    subst hgen
                    have hle := transposeShape_le oracle root shape qm true absFrets htr
                    have hlo : ∀ f ∈ absFrets, -1 ≤ f := by
                      intro f hf
                      by_contra hcon
                      apply hany
                      apply List.any_eq_true.mpr
                      exact ⟨f, hf, by simp; omega⟩
                    exact absToPos_wf absFrets shape qm hle.1 hlo hle.2
                  · exact absurd hgen (by simp)

/-- C6: every voicing returned by the two voicing generators
(getValidatedCAGEDVoicings and generateCAGEDVoicings) has a frets array of
exactly 6 values, each an integer in [-1, 24]; for the enhanced assembler this
holds whenever the external chords-db library supplies well-formed positions,
as its RawVoicing interface declares. -/
theorem claim_c6 :
    (∀ (rootNote quality : String) (l : List CagedSystem.ChordVoicing),
       CagedSystem.generateCAGEDVoicings rootNote quality = some l →
       ∀ v ∈ l, wfFrets v.frets) ∧
    (∀ (oracle : Oracle) (dbLookup : String → String → List ChordPosition)
       (root quality : String) (opts : GVOptions),
       (∀ pos ∈ dbLookup root quality, wfFrets pos.frets) →
       ∀ v ∈ getValidatedCAGEDVoicings oracle dbLookup root quality opts, wfFrets v.frets) :=
  ⟨generate_mem_wf,
    fun oracle dbLookup root quality opts hdb v hv =>
      enhanced_mem_wf oracle dbLookup root quality opts hdb v hv⟩

theorem claim_c6_witness :
    wfFrets ([-1, 3, 2, 0, 1, 0] : List Int) ∧ wfFrets ([-1, 3, 2, 0, 1, 1] : List Int) :=
  ⟨claim_c6.1 "C" "major" ((CagedSystem.generateCAGEDVoicings "C" "major").getD [])
      (by decide)
      ⟨"C Shape (3th Position)", [-1, 3, 2, 0, 1, 0], 3, Shape.C, Difficulty.beginner, []⟩
      (by decide),
   claim_c6.2 chordTones cexDbForeign "C" "major" defaultGVOptions (by decide)
      ⟨"Cmajor (C Shape)", [-1, 3, 2, 0, 1, 1], 1, [0, 3, 2, 0, 1, 1], 1, Shape.C,
        Difficulty.beginner, [], [], true, [0, 4, 7]⟩ (by decide)⟩

/-- C10: getChordShape never throws and always returns 6 fret values: the
all-open fallback [0, 0, 0, 0, 0, 0] for an unrecognized root note or an empty
generation, otherwise the frets of the first voicing produced by
generateCAGEDVoicings. -/
theorem claim_c10 (rootNote quality : String) :
    (CagedSystem.getChordShape rootNote quality).length = 6 ∧
    ((CagedSystem.getNoteIndex rootNote = -1 ∨
        CagedSystem.generateCAGEDVoicings rootNote quality = some []) →
      CagedSystem.getChordShape rootNote quality = [0, 0, 0, 0, 0, 0]) ∧
    ∀ v vs, CagedSystem.generateCAGEDVoicings rootNote quality = some (v :: vs) →
      CagedSystem.getChordShape rootNote quality = v.frets := by
  refine ⟨?_, ?_, ?_⟩
  · cases hgen : CagedSystem.generateCAGEDVoicings rootNote quality with
    | none => simp [CagedSystem.getChordShape, hgen]
    | some l =>
      cases l with
      | nil => simp [CagedSystem.getChordShape, hgen]
      | cons v vs =>
        have hwf := (generate_mem_wf rootNote quality _ hgen v (List.mem_cons_self v vs)).1
        simp [CagedSystem.getChordShape, hgen, hwf]
  · intro h
    rcases h with h | h
    · have hnone : CagedSystem.generateCAGEDVoicings rootNote quality = none := by
        simp [CagedSystem.generateCAGEDVoicings, h]
      simp [CagedSystem.getChordShape, hnone]
    · simp [CagedSystem.getChordShape, h]
  · intro v vs h
    simp [CagedSystem.getChordShape, h]

theorem claim_c10_witness :
    CagedSystem.getChordShape "X" "major" = [0, 0, 0, 0, 0, 0] ∧
    (CagedSystem.getChordShape "C" "major").length = 6 :=
  ⟨(claim_c10 "X" "major").2.1 (Or.inl (by decide)), (claim_c10 "C" "major").1⟩

end GuitarCaged
